import Mathlib

/-!
Verification of the hybrid search engine (`backend/hybrid_search.py`):
BM25 lexical retrieval, local vector store, reciprocal rank fusion,
LLM-based semantic re-ranking, and the orchestrating engine.

Shallow embedding conventions:
* Python floats are modelled as real numbers (`ℝ`); `math.log` is `Real.log`,
  `np.linalg.norm` is `Real.sqrt` of the sum of squares.
* Network calls (embedding provider, LLM judge) are external inputs: the query
  embedding is a parameter of `vectorSearch`, and the parsed judge output is an
  `Option (List JudgeRanking)` parameter of `rerank` (`none` models a failed
  call or unparseable output, i.e. the `except` path).
* Python dicts keeping insertion order are association lists.
* `list.sort` / `sorted` (Timsort, stable) are modelled by the stable
  `List.insertionSort`.  `np.argsort` is called with its default `kind`
  (quicksort/introsort), whose order among equal values NumPy leaves
  unspecified; it is therefore modelled as an arbitrary ascending-sorted
  permutation of the index list, chosen by `Classical.choose`, so that only
  the documented sortedness contract is assumed and no tie order is baked in.
* Fallible indexing (`self.documents[doc_idx]`, which can raise `IndexError`)
  is modelled with `Option`: a `none` result of `engineSearch` models a raised
  exception.
* Character classes use the ASCII fragment of Python's `str.lower`, the regex
  token class `[a-z0-9]` and the word class `\w` of the word boundary.
-/

/-- A KBLI record: the dict fields actually read by the engine. -/
structure Doc where
  kode_kbli : String
  judul : String
  hierarki : String
  cakupan : String
deriving DecidableEq, Inhabited

/-- Characters matched by the regex character class `[a-z0-9]`. -/
def isTokenChar (c : Char) : Bool :=
  ('a' ≤ c && c ≤ 'z') || ('0' ≤ c && c ≤ '9')

/-- Word characters for the regex word boundary `\b` (ASCII fragment of `\w`). -/
def isWordChar (c : Char) : Bool :=
  c.isAlphanum || c == '_'

/-- Scanner for `re.findall(r'\b[a-z0-9]+\b', text)` on a lowercased
character list: a maximal run of token characters is emitted iff both its
neighbours are word boundaries.  The second argument is the pending run
(reversed) paired with whether its left boundary was a word boundary; the
third argument records whether the previous character was a word character. -/
def scanTokens : List Char → Option (List Char × Bool) → Bool → List String
  | [], none, _ => []
  | [], some (run, leftOk), _ => if leftOk then [String.mk run.reverse] else []
  | c :: cs, none, prevWord =>
    if isTokenChar c then scanTokens cs (some ([c], !prevWord)) true
    else scanTokens cs none (isWordChar c)
  | c :: cs, some (run, leftOk), _ =>
    if isTokenChar c then scanTokens cs (some (c :: run, leftOk)) true
    else
      (if leftOk && !isWordChar c then [String.mk run.reverse] else [])
        ++ scanTokens cs none (isWordChar c)

/-- `BM25._tokenize`: lowercase, extract alphanumeric runs, keep tokens of
length > 1. -/
def tokenize (text : String) : List String :=
  if text = "" then []
  else
    (scanTokens (text.data.map Char.toLower) none false).filter (fun t => 1 < t.length)

/-- The state built by `BM25.fit` (fields of the `BM25` object). -/
structure BM25State where
  k1 : ℝ
  b : ℝ
  corpus_size : ℕ
  avgdl : ℝ
  doc_freqs : String → ℕ
  idf : String → Option ℝ
  doc_len : List ℕ
  documents : List (List String)
  original_docs : List Doc

/-- The default `text_fields = ["judul", "hierarki", "cakupan"]`. -/
def defaultTextFields : List (Doc → String) :=
  [Doc.judul, Doc.hierarki, Doc.cakupan]

/-- `" ".join(str(doc.get(f, "")) for f in text_fields)`. -/
def combineFields (text_fields : List (Doc → String)) (d : Doc) : String :=
  String.intercalate " " (text_fields.map (fun f => f d))

/-- `BM25.fit`: tokenize every document, record lengths, average document
length, per-term document frequency and the smoothed inverse document
frequency.  `idf term = none` models `term not in self.idf` (terms occurring
in no document never enter the dict). -/
noncomputable def bm25Fit (documents_in : List Doc)
    (text_fields : List (Doc → String)) : BM25State :=
  let tokenized := documents_in.map (fun d => tokenize (combineFields text_fields d))
  let doc_len := tokenized.map List.length
  let corpus_size := documents_in.length
  let avgdl : ℝ := if 0 < corpus_size then (doc_len.sum : ℝ) / (corpus_size : ℝ) else 0
  let doc_freqs : String → ℕ := fun term =>
    (tokenized.filter (fun toks => decide (term ∈ toks))).length
  { k1 := 1.5
    b := 0.75
    corpus_size := corpus_size
    avgdl := avgdl
    doc_freqs := doc_freqs
    idf := fun term =>
      if 0 < doc_freqs term then
        some (Real.log (((corpus_size : ℝ) - (doc_freqs term : ℝ) + 0.5) /
          ((doc_freqs term : ℝ) + 0.5) + 1))
      else none
    doc_len := doc_len
    documents := tokenized
    original_docs := documents_in }

/-- `Counter(doc_tokens)[term]`: term frequency of one term. -/
def countTF (term : String) (doc_tokens : List String) : ℕ :=
  (doc_tokens.filter (fun t => t == term)).length

/-- `BM25._score_document`: sum over query terms present in the idf table and
in the document of `idf * tf*(k1+1) / (tf + k1*(1 - b + b*(dl/avgdl)))`. -/
noncomputable def scoreDocument (st : BM25State) (query_tokens : List String)
    (doc_tokens : List String) (dl : ℕ) : ℝ :=
  query_tokens.foldl (fun score term =>
    match st.idf term with
    | none => score
    | some idfv =>
      let tf := countTF term doc_tokens
      if tf = 0 then score
      else
        let numerator : ℝ := (tf : ℝ) * (st.k1 + 1)
        let denominator : ℝ := (tf : ℝ) + st.k1 * (1 - st.b + st.b * ((dl : ℝ) / st.avgdl))
        score + idfv * (numerator / denominator)) 0

/-- Descending-by-score order used by `scores.sort(key=..., reverse=True)`
and `sorted(..., reverse=True)`; stable sorting with this relation models
Python's stable sort with `reverse=True`. -/
def scoreDescRel (a b : ℕ × ℝ) : Prop := b.2 ≤ a.2

noncomputable instance : DecidableRel scoreDescRel :=
  fun a b => inferInstanceAs (Decidable (b.2 ≤ a.2))

instance : IsTotal (ℕ × ℝ) scoreDescRel := ⟨fun a b => le_total b.2 a.2⟩

instance : IsTrans (ℕ × ℝ) scoreDescRel := ⟨fun _ _ _ h1 h2 => le_trans h2 h1⟩

/-- `BM25.search`: empty token lists short-circuit; every document with a
strictly positive score enters in index order; then stable sort descending by
score and truncate to `top_k`. -/
noncomputable def bm25Search (st : BM25State) (query : String) (top_k : ℕ) :
    List (ℕ × ℝ) :=
  let query_tokens := tokenize query
  if query_tokens.isEmpty then []
  else
    let scores := (List.range st.documents.length).filterMap (fun idx =>
      let score := scoreDocument st query_tokens (st.documents.getD idx [])
        (st.doc_len.getD idx 0)
      if 0 < score then some (idx, score) else none)
    (scores.insertionSort scoreDescRel).take top_k

/-- The state of `LocalVectorStore` (embedding matrix as a list of rows). -/
structure LocalVectorStore where
  embeddings : List (List ℝ)
  documents : List Doc
  is_ready : Bool

/-- `np.dot` of two vectors. -/
def dotProduct (u v : List ℝ) : ℝ :=
  (List.zipWith (fun a b => a * b) u v).sum

/-- `np.linalg.norm` (L2 norm). -/
noncomputable def l2norm (v : List ℝ) : ℝ :=
  Real.sqrt ((v.map (fun x => x ^ 2)).sum)

/-- `v / (np.linalg.norm(v) + 1e-10)`. -/
noncomputable def normalizeVec (v : List ℝ) : List ℝ :=
  v.map (fun x => x / (l2norm v + 1e-10))

/-- Some permutation of `[0, ..., n-1]` ascending by similarity exists (an
insertion sort provides one). -/
theorem exists_argsort (sims : List ℝ) :
    ∃ idxs : List ℕ, List.Perm idxs (List.range sims.length) ∧
      idxs.Sorted (fun i j => sims.getD i 0 ≤ sims.getD j 0) := by
  haveI : IsTotal ℕ (fun i j => sims.getD i 0 ≤ sims.getD j 0) :=
    ⟨fun x y => le_total _ _⟩
  haveI : IsTrans ℕ (fun i j => sims.getD i 0 ≤ sims.getD j 0) :=
    ⟨fun x y z hxy hyz => le_trans hxy hyz⟩
  exact ⟨(List.range sims.length).insertionSort
      (fun i j => sims.getD i 0 ≤ sims.getD j 0),
    List.perm_insertionSort _ _, List.sorted_insertionSort _ _⟩

/-- `np.argsort` on the similarity vector.  The call uses NumPy's default
`kind` (quicksort/introsort), whose order among equal values is unspecified,
so the model is an arbitrary ascending-sorted permutation of the indices:
only the documented contract — a permutation of `[0, ..., n-1]` with
similarities in non-decreasing order — is assumed. -/
noncomputable def argsortAsc (sims : List ℝ) : List ℕ :=
  Classical.choose (exists_argsort sims)

theorem argsortAsc_perm (sims : List ℝ) :
    List.Perm (argsortAsc sims) (List.range sims.length) :=
  (Classical.choose_spec (exists_argsort sims)).1

theorem argsortAsc_sorted (sims : List ℝ) :
    (argsortAsc sims).Sorted (fun i j => sims.getD i 0 ≤ sims.getD j 0) :=
  (Classical.choose_spec (exists_argsort sims)).2

/-- The similarity vector of `LocalVectorStore.search`:
`np.dot(self.embeddings, query_embedding)` after the query embedding has been
normalized. -/
noncomputable def vectorSims (store : LocalVectorStore)
    (query_embedding : List ℝ) : List ℝ :=
  store.embeddings.map (fun row => dotProduct row (normalizeVec query_embedding))

/-- `LocalVectorStore.search`: not-ready short-circuits to `[]`; otherwise
normalize the (externally produced) query embedding, take dot products
against every row, and return `np.argsort(similarities)[::-1][:top_k]`
paired with the similarities. -/
noncomputable def vectorSearch (store : LocalVectorStore)
    (query_embedding : List ℝ) (top_k : ℕ) : List (ℕ × ℝ) :=
  if store.is_ready then
    let similarities := vectorSims store query_embedding
    let top_indices := (argsortAsc similarities).reverse.take top_k
    top_indices.map (fun idx => (idx, similarities.getD idx 0))
  else []

/-- One update of the `rrf_scores` dict: create the key with value `0.0` if
absent, then add the increment.  Association list keeps dict insertion
order. -/
noncomputable def updateScore : List (ℕ × ℝ) → ℕ → ℝ → List (ℕ × ℝ)
  | [], d, inc => [(d, 0 + inc)]
  | (key, v) :: rest, d, inc =>
    if key = d then (key, v + inc) :: rest
    else (key, v) :: updateScore rest d inc

/-- `for rank, (doc_id, _) in enumerate(ranking): rrf_scores[doc_id] += 1.0/(k + rank + 1)`. -/
noncomputable def rrfAddRanking (k : ℕ) :
    List (ℕ × ℝ) → List (ℕ × ℝ) → ℕ → List (ℕ × ℝ)
  | acc, [], _ => acc
  | acc, (doc_id, _) :: rest, rank =>
    rrfAddRanking k (updateScore acc doc_id (1 / ((k : ℝ) + (rank : ℝ) + 1))) rest (rank + 1)

/-- `reciprocal_rank_fusion`: accumulate `1/(k + rank + 1)` per occurrence,
then `sorted(rrf_scores.items(), key=..., reverse=True)`. -/
noncomputable def reciprocal_rank_fusion (rankings : List (List (ℕ × ℝ)))
    (k : ℕ) : List (ℕ × ℝ) :=
  let rrf_scores := rankings.foldl (fun acc ranking => rrfAddRanking k acc ranking 0) []
  rrf_scores.insertionSort scoreDescRel

/-- A candidate dict `{**doc, "rrf_score": ..., "_doc_idx": ...}`; the two
provenance fields and the two re-ranking fields are optional keys. -/
structure Candidate where
  doc : Doc
  rrf_score : Option ℝ
  doc_idx : Option ℕ
  relevance_score : Option ℝ
  reasoning : Option String

/-- One parsed entry of the judge's `"rankings"` array (the `"rank"` key is
present in the judge output but never read back). -/
structure JudgeRanking where
  rank : Int
  index : Int
  relevance : ℝ
  reason : String

/-- The body of the mapping loop of `SemanticReranker.rerank`: convert the
judge's 1-based `index` to 0-based, and when it is in range append a copy of
that candidate with `relevance_score` and `reasoning` attached. -/
noncomputable def applyRanking (candidates : List Candidate)
    (reranked : List Candidate) (r : JudgeRanking) : List Candidate :=
  let idx := r.index - 1
  if h : 0 ≤ idx ∧ idx.toNat < candidates.length then
    reranked ++ [{ candidates.get ⟨idx.toNat, h.2⟩ with
      relevance_score := some r.relevance
      reasoning := some r.reason }]
  else reranked

/-- `SemanticReranker.rerank`.  The judge call and JSON extraction are
external: `judge = none` models any exception in the `try` block (call
failure or parse failure), `judge = some rankings` a successfully parsed
`"rankings"` list.  Candidates are capped at 15 before the call; on success
1-based indices are mapped back onto the capped candidate list; on failure
the first `top_k` capped candidates are returned unchanged. -/
noncomputable def rerank (judge : Option (List JudgeRanking)) (_query : String)
    (candidates_in : List Candidate) (top_k : ℕ) : List Candidate :=
  if candidates_in.isEmpty then []
  else
    let candidates := candidates_in.take 15
    match judge with
    | some rankings =>
      (rankings.take top_k).foldl (applyRanking candidates) []
    | none => candidates.take top_k

/-- The state of `HybridSearchEngine`. -/
structure HybridSearchEngine where
  bm25 : BM25State
  vector_store : LocalVectorStore
  documents : List Doc
  is_ready : Bool

/-- The dict returned by `HybridSearchEngine.search`: either the not-ready
error dict or the full result dict. -/
inductive SearchResponse where
  | notReady (error : String) (results : List Candidate)
  | ok (query : String) (total_candidates : ℕ) (bm25_top : ℕ) (vector_top : ℕ)
      (results : List Candidate)

/-- The `"results"` entry of either response shape. -/
def SearchResponse.results : SearchResponse → List Candidate
  | .notReady _ rs => rs
  | .ok _ _ _ _ rs => rs

/-- The walk over `fused_ranking[:retrieval_top_k]` building candidates while
skipping identifiers already in `seen_codes`; `none` models an `IndexError`
on `self.documents[doc_idx]`. -/
noncomputable def walkCandidates (docs : List Doc) :
    List (ℕ × ℝ) → List String → Option (List Candidate)
  | [], _ => some []
  | (doc_idx, rrf_score) :: rest, seen_codes =>
    match docs[doc_idx]? with
    | none => none
    | some doc =>
      let code := doc.kode_kbli
      if code ∈ seen_codes then walkCandidates docs rest seen_codes
      else
        match walkCandidates docs rest (code :: seen_codes) with
        | none => none
        | some tail =>
          some ({ doc := doc
                  rrf_score := some rrf_score
                  doc_idx := some doc_idx
                  relevance_score := none
                  reasoning := none } :: tail)

/-- Candidate construction from the fused ranking (source lines 517-528). -/
noncomputable def buildCandidates (docs : List Doc) (fused_ranking : List (ℕ × ℝ))
    (retrieval_top_k : ℕ) : Option (List Candidate) :=
  walkCandidates docs (fused_ranking.take retrieval_top_k) []

/-- `HybridSearchEngine.search`.  The vector branch's query embedding and the
judge outcome are external inputs.  Returns `none` only for a raised
exception (out-of-range document index from the fused ranking). -/
noncomputable def engineSearch (e : HybridSearchEngine) (query : String)
    (query_embedding : List ℝ) (judge : Option (List JudgeRanking))
    (top_k : ℕ) (use_reranking : Bool) (retrieval_top_k : ℕ) :
    Option SearchResponse :=
  if e.is_ready then
    let bm25_results := bm25Search e.bm25 query retrieval_top_k
    let vector_results := vectorSearch e.vector_store query_embedding retrieval_top_k
    let fused_ranking := reciprocal_rank_fusion [bm25_results, vector_results] 60
    match buildCandidates e.documents fused_ranking retrieval_top_k with
    | none => none
    | some candidates =>
      let final_results :=
        if use_reranking && !candidates.isEmpty then rerank judge query candidates top_k
        else candidates.take top_k
      let final_results := final_results.map (fun r => { r with doc_idx := none })
      some (.ok query fused_ranking.length bm25_results.length vector_results.length
        final_results)
  else some (.notReady "Search engine not initialized" [])

/-! ### Sample objects used by concrete witnesses and counterexamples -/

/-- A sample valid KBLI record. -/
def D0 : Doc := ⟨"47111", "Perdagangan Eceran", "G", "Makanan"⟩

/-- A second record carrying the same identifier as `D0`. -/
def D1 : Doc := ⟨"47111", "Perdagangan Eceran Duplikat", "G", "Makanan"⟩

/-- A not-ready engine (as before `initialize` completes). -/
noncomputable def E0 : HybridSearchEngine :=
  { bm25 := bm25Fit [] defaultTextFields
    vector_store := { embeddings := [], documents := [], is_ready := false }
    documents := []
    is_ready := false }

/-! ### BM25 idf: the smoothing keeps every stored idf strictly positive -/

/-- Reformulation of the `idf` table built by `fit` through the state's own
`doc_freqs` and `corpus_size` fields. -/
theorem bm25Fit_idf_eq (docs : List Doc) (text_fields : List (Doc → String))
    (term : String) :
    (bm25Fit docs text_fields).idf term =
      if 0 < (bm25Fit docs text_fields).doc_freqs term then
        some (Real.log ((((bm25Fit docs text_fields).corpus_size : ℝ) -
            ((bm25Fit docs text_fields).doc_freqs term : ℝ) + 0.5) /
          (((bm25Fit docs text_fields).doc_freqs term : ℝ) + 0.5) + 1))
      else none := rfl

/-- Document frequencies never exceed the corpus size. -/
theorem bm25Fit_doc_freqs_le (docs : List Doc) (text_fields : List (Doc → String))
    (term : String) :
    (bm25Fit docs text_fields).doc_freqs term ≤ (bm25Fit docs text_fields).corpus_size := by
  simpa [bm25Fit] using le_trans (List.length_filter_le _ _) (by simp)

/-- Any idf value stored by `fit` is strictly positive: the argument of the
logarithm is `1` plus a ratio of positive reals. -/
theorem bm25Fit_idf_pos (docs : List Doc) (text_fields : List (Doc → String))
    (term : String) (v : ℝ)
    (h : (bm25Fit docs text_fields).idf term = some v) : 0 < v := by
  rw [bm25Fit_idf_eq] at h
  split at h
  · rw [Option.some_inj] at h
    subst h
    apply Real.log_pos
    have hle : ((bm25Fit docs text_fields).doc_freqs term : ℝ) ≤
        ((bm25Fit docs text_fields).corpus_size : ℝ) := by
      exact_mod_cast bm25Fit_doc_freqs_le docs text_fields term
    have hnum : (0 : ℝ) < ((bm25Fit docs text_fields).corpus_size : ℝ) -
        ((bm25Fit docs text_fields).doc_freqs term : ℝ) + 0.5 := by linarith
    have hden : (0 : ℝ) < ((bm25Fit docs text_fields).doc_freqs term : ℝ) + 0.5 := by
      positivity
    have := div_pos hnum hden
    linarith
  · exact absurd h (by simp)

/-- Claim C2 (corrected): the claim asserts the smoothed idf can be negative
for a term occurring in more than half the corpus.  In fact the `+ 1` inside
the logarithm makes every stored idf strictly positive, for every corpus and
every term (the source comment even says the smoothing is there to avoid
negative values). -/
theorem C2_idf_never_negative (docs : List Doc) (text_fields : List (Doc → String))
    (term : String) (v : ℝ)
    (h : (bm25Fit docs text_fields).idf term = some v) : 0 < v :=
  bm25Fit_idf_pos docs text_fields term v h

/-- Claim C2, counterexample to the claim as stated: no corpus and no term —
in particular none with document frequency above half the corpus size — gives
a negative idf. -/
theorem C2_counterexample :
    ¬ ∃ (docs : List Doc) (term : String) (v : ℝ),
      docs.length < 2 * (bm25Fit docs defaultTextFields).doc_freqs term ∧
      (bm25Fit docs defaultTextFields).idf term = some v ∧ v < 0 := by
  rintro ⟨docs, term, v, -, h, hv⟩
  exact absurd (bm25Fit_idf_pos docs defaultTextFields term v h) (by linarith)

/-- Concrete evaluation: `idf "makanan"` over the one-document corpus `[D0]`
is `ln((1 - 1 + 0.5)/(1 + 0.5) + 1) = ln(4/3)`. -/
theorem C2_eval :
    (bm25Fit [D0] defaultTextFields).idf "makanan" = some (Real.log ((4 : ℝ) / 3)) := by
  have hdf : (bm25Fit [D0] defaultTextFields).doc_freqs "makanan" = 1 := by decide
  have hN : (bm25Fit [D0] defaultTextFields).corpus_size = 1 := by decide
  rw [bm25Fit_idf_eq, hdf, hN]
  norm_num

/-- Claim C2, witness: the theorem applied to the concrete corpus `[D0]`. -/
theorem C2_witness :
    (bm25Fit [D0] defaultTextFields).idf "makanan" = some (Real.log ((4 : ℝ) / 3)) ∧
    0 < Real.log ((4 : ℝ) / 3) :=
  ⟨C2_eval, C2_idf_never_negative [D0] defaultTextFields "makanan" _ C2_eval⟩

/-! ### Engine not ready -/

/-- Claim C4 (confirmed): calling `search` on a not-ready engine returns the
explicit not-ready error dict with an empty results list; in particular the
call is `some` (no raised exception in the embedding). -/
theorem C4_not_ready (e : HybridSearchEngine) (query : String)
    (query_embedding : List ℝ) (judge : Option (List JudgeRanking))
    (top_k : ℕ) (use_reranking : Bool) (retrieval_top_k : ℕ)
    (h : e.is_ready = false) :
    engineSearch e query query_embedding judge top_k use_reranking retrieval_top_k
      = some (.notReady "Search engine not initialized" []) := by
  simp [engineSearch, h]

/-- Claim C4, witness: the not-ready sample engine `E0`. -/
theorem C4_witness :
    E0.is_ready = false ∧
    engineSearch E0 "warung makan" [] none 5 true 20
      = some (.notReady "Search engine not initialized" []) :=
  ⟨rfl, C4_not_ready E0 "warung makan" [] none 5 true 20 rfl⟩

/-! ### BM25 average document length is positive wherever a term frequency is -/

/-- Claim C10 (confirmed): if some term has positive frequency in some
tokenized document of a fitted index — the only situation in which
`_score_document` reaches the division by `avgdl` — then `avgdl` is strictly
positive, so the division is well defined even for corpora whose documents
all tokenize to nothing. -/
theorem C10_avgdl_pos (docs : List Doc) (text_fields : List (Doc → String))
    (idx : ℕ) (term : String)
    (h : 0 < countTF term ((bm25Fit docs text_fields).documents.getD idx [])) :
    0 < (bm25Fit docs text_fields).avgdl := by
  have hne : ((bm25Fit docs text_fields).documents.getD idx []) ≠ [] := by
    intro hnil
    rw [hnil] at h
    simp [countTF] at h
  have hlt : idx < (bm25Fit docs text_fields).documents.length := by
    by_contra hge
    exact hne (List.getD_eq_default _ _ (le_of_not_lt hge))
  have hmem : ((bm25Fit docs text_fields).documents.getD idx []) ∈
      (bm25Fit docs text_fields).documents := by
    rw [List.getD_eq_getElem _ [] hlt]
    exact (bm25Fit docs text_fields).documents.getElem_mem hlt
  have hlen : 0 < ((bm25Fit docs text_fields).documents.getD idx []).length :=
    List.length_pos.mpr hne
  have hsum : 0 < ((bm25Fit docs text_fields).documents.map List.length).sum :=
    lt_of_lt_of_le hlen
      (List.single_le_sum (fun x _ => Nat.zero_le x) _ (List.mem_map_of_mem _ hmem))
  have hN : 0 < docs.length := by
    have hdl : (bm25Fit docs text_fields).documents.length = docs.length := by
      simp [bm25Fit]
    omega
  have havg : (bm25Fit docs text_fields).avgdl =
      if 0 < docs.length then
        (((bm25Fit docs text_fields).doc_len.sum : ℝ) / (docs.length : ℝ))
      else 0 := rfl
  have hdoclen : (bm25Fit docs text_fields).doc_len =
      (bm25Fit docs text_fields).documents.map List.length := rfl
  rw [havg, if_pos hN, hdoclen]
  apply div_pos
  · exact_mod_cast hsum
  · exact_mod_cast hN

/-- Claim C10, witness: term `"makanan"` occurs in document 0 of the corpus
`[D0]`, and the fitted average document length is positive. -/
theorem C10_witness :
    0 < countTF "makanan" ((bm25Fit [D0] defaultTextFields).documents.getD 0 []) ∧
    0 < (bm25Fit [D0] defaultTextFields).avgdl :=
  ⟨by decide, C10_avgdl_pos [D0] defaultTextFields 0 "makanan" (by decide)⟩

/-! ### BM25 search output shape -/

/-- `BM25.search` on any state: at most `top_k` entries, sorted by
non-increasing score, and every entry is a document index paired with its own
strictly positive score. -/
theorem bm25Search_spec (st : BM25State) (query : String) (top_k : ℕ) :
    (bm25Search st query top_k).length ≤ top_k ∧
    List.Sorted scoreDescRel (bm25Search st query top_k) ∧
    ∀ p ∈ bm25Search st query top_k,
      p.1 < st.documents.length ∧ 0 < p.2 ∧
      p.2 = scoreDocument st (tokenize query) (st.documents.getD p.1 [])
        (st.doc_len.getD p.1 0) := by
  by_cases hq : (tokenize query).isEmpty
  · simp [bm25Search, hq, List.Sorted]
  · have hout : bm25Search st query top_k =
        (((List.range st.documents.length).filterMap (fun idx =>
          if 0 < scoreDocument st (tokenize query) (st.documents.getD idx [])
              (st.doc_len.getD idx 0) then
            some (idx, scoreDocument st (tokenize query) (st.documents.getD idx [])
              (st.doc_len.getD idx 0))
          else none)).insertionSort scoreDescRel).take top_k := by
      simp [bm25Search, hq]
    refine ⟨?_, ?_, ?_⟩
    · rw [hout]
      exact List.length_take_le _ _
    · rw [hout]
      exact List.Pairwise.sublist (List.take_sublist _ _)
        (List.sorted_insertionSort scoreDescRel _)
    · intro p hp
      rw [hout] at hp
      have hp1 : p ∈ ((List.range st.documents.length).filterMap (fun idx =>
          if 0 < scoreDocument st (tokenize query) (st.documents.getD idx [])
              (st.doc_len.getD idx 0) then
            some (idx, scoreDocument st (tokenize query) (st.documents.getD idx [])
              (st.doc_len.getD idx 0))
          else none)).insertionSort scoreDescRel :=
        List.mem_of_mem_take hp
      have hp2 := (List.perm_insertionSort scoreDescRel _).subset hp1
      obtain ⟨idx, hidx, heq⟩ := List.mem_filterMap.mp hp2
      by_cases hs : 0 < scoreDocument st (tokenize query) (st.documents.getD idx [])
          (st.doc_len.getD idx 0)
      · rw [if_pos hs, Option.some_inj] at heq
        subst heq
        exact ⟨List.mem_range.mp hidx, hs, rfl⟩
      · rw [if_neg hs] at heq
        exact absurd heq (by simp)

/-- Claim C5 (confirmed): for every fitted index, query and `top_k`, the
result of `BM25.search` has at most `top_k` entries, is sorted by
non-increasing score, and every entry pairs a valid document index with its
own BM25 score, which is strictly positive — zero-score documents never
appear. -/
theorem C5_bm25_search_shape (docs : List Doc) (text_fields : List (Doc → String))
    (query : String) (top_k : ℕ) :
    (bm25Search (bm25Fit docs text_fields) query top_k).length ≤ top_k ∧
    List.Sorted scoreDescRel (bm25Search (bm25Fit docs text_fields) query top_k) ∧
    ∀ p ∈ bm25Search (bm25Fit docs text_fields) query top_k,
      p.1 < (bm25Fit docs text_fields).documents.length ∧ 0 < p.2 ∧
      p.2 = scoreDocument (bm25Fit docs text_fields) (tokenize query)
        ((bm25Fit docs text_fields).documents.getD p.1 [])
        ((bm25Fit docs text_fields).doc_len.getD p.1 0) :=
  bm25Search_spec (bm25Fit docs text_fields) query top_k

/-! ### Reciprocal rank fusion: dict invariants -/

/-- Dict lookup in the `rrf_scores` association list: value of the first
matching key, `0` for an absent key. -/
noncomputable def valueOf : List (ℕ × ℝ) → ℕ → ℝ
  | [], _ => 0
  | (key, v) :: rest, d => if key = d then v else valueOf rest d

/-- Total contribution of document `d` accumulated by one enumerate loop
starting at `rank`: one term per occurrence of `d`. -/
noncomputable def sumContrib (k : ℕ) (d : ℕ) : List (ℕ × ℝ) → ℕ → ℝ
  | [], _ => 0
  | (doc_id, _) :: rest, rank =>
    (if doc_id = d then 1 / ((k : ℝ) + (rank : ℝ) + 1) else 0) +
      sumContrib k d rest (rank + 1)

/-- Modelled from the spec: the contribution `1/(K + rank + 1)` of document
`d` to one list, `rank` being its 0-based position in that list (`0` when the
document is absent from the list). -/
noncomputable def posContrib (k : ℕ) (d : ℕ) : List (ℕ × ℝ) → ℕ → ℝ
  | [], _ => 0
  | (doc_id, _) :: rest, rank =>
    if doc_id = d then 1 / ((k : ℝ) + (rank : ℝ) + 1) else posContrib k d rest (rank + 1)

/-- Modelled from the spec: the fused score of document `d` is the sum over
the input lists of `1/(K + rank + 1)` at its 0-based position in each list
containing it. -/
noncomputable def rrfSpecScore (rankings : List (List (ℕ × ℝ))) (k : ℕ) (d : ℕ) : ℝ :=
  (rankings.map (fun rk => posContrib k d rk 0)).sum

theorem valueOf_updateScore_self (acc : List (ℕ × ℝ)) (d : ℕ) (inc : ℝ) :
    valueOf (updateScore acc d inc) d = valueOf acc d + inc := by
  induction acc with
  | nil => simp [updateScore, valueOf]
  | cons p rest ih =>
    obtain ⟨key, v⟩ := p
    by_cases h : key = d
    · subst h
      simp [updateScore, valueOf]
    · simp [updateScore, valueOf, h, ih]

theorem valueOf_updateScore_ne (acc : List (ℕ × ℝ)) (d x : ℕ) (inc : ℝ)
    (h : x ≠ d) : valueOf (updateScore acc d inc) x = valueOf acc x := by
  have hdx : d ≠ x := fun hh => h hh.symm
  induction acc with
  | nil => simp [updateScore, valueOf, hdx]
  | cons p rest ih =>
    obtain ⟨key, v⟩ := p
    by_cases hk : key = d
    · subst hk
      have hkx : key ≠ x := fun hh => h hh.symm
      simp [updateScore, valueOf, hkx]
    · simp only [updateScore, if_neg hk, valueOf]
      by_cases hx : key = x
      · simp [hx]
      · simp [hx, ih]

theorem mem_keys_updateScore (acc : List (ℕ × ℝ)) (d x : ℕ) (inc : ℝ) :
    x ∈ (updateScore acc d inc).map Prod.fst ↔
      x ∈ acc.map Prod.fst ∨ x = d := by
  induction acc with
  | nil => simp [updateScore]
  | cons p rest ih =>
    obtain ⟨key, v⟩ := p
    by_cases hk : key = d
    · subst hk
      have hupd : updateScore ((key, v) :: rest) key inc = (key, v + inc) :: rest := by
        simp [updateScore]
      rw [hupd]
      simp only [List.map_cons, List.mem_cons]
      tauto
    · have hupd : updateScore ((key, v) :: rest) d inc =
          (key, v) :: updateScore rest d inc := by
        simp [updateScore, hk]
      rw [hupd]
      simp only [List.map_cons, List.mem_cons, ih]
      tauto

theorem nodup_keys_updateScore (acc : List (ℕ × ℝ)) (d : ℕ) (inc : ℝ)
    (h : (acc.map Prod.fst).Nodup) :
    ((updateScore acc d inc).map Prod.fst).Nodup := by
  induction acc with
  | nil => simp [updateScore]
  | cons p rest ih =>
    obtain ⟨key, v⟩ := p
    simp only [List.map_cons, List.nodup_cons] at h
    by_cases hk : key = d
    · subst hk
      simpa [updateScore] using h
    · simp only [updateScore, if_neg hk, List.map_cons, List.nodup_cons]
      refine ⟨?_, ih h.2⟩
      rw [mem_keys_updateScore]
      rintro (hc | hc)
      · exact h.1 hc
      · exact hk hc

theorem valueOf_rrfAddRanking (k d : ℕ) (rk : List (ℕ × ℝ)) :
    ∀ (acc : List (ℕ × ℝ)) (rank : ℕ),
    valueOf (rrfAddRanking k acc rk rank) d = valueOf acc d + sumContrib k d rk rank := by
  induction rk with
  | nil => intro acc rank; simp [rrfAddRanking, sumContrib]
  | cons p rest ih =>
    obtain ⟨doc_id, s⟩ := p
    intro acc rank
    by_cases hd : doc_id = d
    · subst hd
      simp only [rrfAddRanking, sumContrib, eq_self_iff_true, if_true]
      rw [ih, valueOf_updateScore_self]
      ring
    · simp only [rrfAddRanking, sumContrib, if_neg hd]
      rw [ih, valueOf_updateScore_ne _ _ _ _ (fun hh => hd hh.symm)]
      ring

theorem mem_keys_rrfAddRanking (k x : ℕ) (rk : List (ℕ × ℝ)) :
    ∀ (acc : List (ℕ × ℝ)) (rank : ℕ),
    x ∈ (rrfAddRanking k acc rk rank).map Prod.fst ↔
      x ∈ acc.map Prod.fst ∨ x ∈ rk.map Prod.fst := by
  induction rk with
  | nil => intro acc rank; simp [rrfAddRanking]
  | cons p rest ih =>
    obtain ⟨doc_id, s⟩ := p
    intro acc rank
    simp only [rrfAddRanking]
    rw [ih, mem_keys_updateScore]
    simp only [List.map_cons, List.mem_cons]
    tauto

theorem nodup_keys_rrfAddRanking (k : ℕ) (rk : List (ℕ × ℝ)) :
    ∀ (acc : List (ℕ × ℝ)) (rank : ℕ), (acc.map Prod.fst).Nodup →
      ((rrfAddRanking k acc rk rank).map Prod.fst).Nodup := by
  induction rk with
  | nil => intro acc rank h; simpa [rrfAddRanking] using h
  | cons p rest ih =>
    obtain ⟨doc_id, s⟩ := p
    intro acc rank h
    exact ih _ _ (nodup_keys_updateScore _ _ _ h)

theorem valueOf_rrf_foldl (k d : ℕ) (rankings : List (List (ℕ × ℝ))) :
    ∀ acc : List (ℕ × ℝ),
    valueOf (rankings.foldl (fun a rk => rrfAddRanking k a rk 0) acc) d =
      valueOf acc d + (rankings.map (fun rk => sumContrib k d rk 0)).sum := by
  induction rankings with
  | nil => intro acc; simp
  | cons rk rest ih =>
    intro acc
    simp only [List.foldl_cons, List.map_cons, List.sum_cons]
    rw [ih, valueOf_rrfAddRanking]
    ring

theorem mem_keys_rrf_foldl (k x : ℕ) (rankings : List (List (ℕ × ℝ))) :
    ∀ acc : List (ℕ × ℝ),
    x ∈ ((rankings.foldl (fun a rk => rrfAddRanking k a rk 0) acc).map Prod.fst) ↔
      x ∈ acc.map Prod.fst ∨ ∃ rk ∈ rankings, x ∈ rk.map Prod.fst := by
  induction rankings with
  | nil => intro acc; simp
  | cons rk rest ih =>
    intro acc
    simp only [List.foldl_cons]
    rw [ih, mem_keys_rrfAddRanking, List.exists_mem_cons_iff]
    tauto

theorem nodup_keys_rrf_foldl (k : ℕ) (rankings : List (List (ℕ × ℝ))) :
    ∀ acc : List (ℕ × ℝ), (acc.map Prod.fst).Nodup →
      ((rankings.foldl (fun a rk => rrfAddRanking k a rk 0) acc).map Prod.fst).Nodup := by
  induction rankings with
  | nil => intro acc h; simpa using h
  | cons rk rest ih =>
    intro acc h
    exact ih _ (nodup_keys_rrfAddRanking _ _ _ _ h)

theorem mem_of_valueOf (acc : List (ℕ × ℝ)) (d : ℕ)
    (h : d ∈ acc.map Prod.fst) : (d, valueOf acc d) ∈ acc := by
  induction acc with
  | nil => simp at h
  | cons p rest ih =>
    obtain ⟨key, v⟩ := p
    by_cases hk : key = d
    · subst hk
      simp [valueOf]
    · simp only [List.map_cons, List.mem_cons] at h
      rcases h with h | h
      · exact absurd h.symm hk
      · simp only [valueOf, if_neg hk]
        exact List.mem_cons_of_mem _ (ih h)

theorem sumContrib_eq_zero (k d : ℕ) (rk : List (ℕ × ℝ))
    (h : d ∉ rk.map Prod.fst) : ∀ rank : ℕ, sumContrib k d rk rank = 0 := by
  induction rk with
  | nil => intro rank; simp [sumContrib]
  | cons p rest ih =>
    obtain ⟨doc_id, s⟩ := p
    intro rank
    simp only [List.map_cons, List.mem_cons] at h
    push_neg at h
    have hnd : doc_id ≠ d := fun hh => h.1 hh.symm
    simp [sumContrib, hnd, ih h.2]

theorem posContrib_eq_zero (k d : ℕ) (rk : List (ℕ × ℝ))
    (h : d ∉ rk.map Prod.fst) : ∀ rank : ℕ, posContrib k d rk rank = 0 := by
  induction rk with
  | nil => intro rank; simp [posContrib]
  | cons p rest ih =>
    obtain ⟨doc_id, s⟩ := p
    intro rank
    simp only [List.map_cons, List.mem_cons] at h
    push_neg at h
    have hnd : doc_id ≠ d := fun hh => h.1 hh.symm
    simp [posContrib, hnd, ih h.2]

theorem sumContrib_eq_posContrib (k d : ℕ) (rk : List (ℕ × ℝ))
    (h : (rk.map Prod.fst).Nodup) :
    ∀ rank : ℕ, sumContrib k d rk rank = posContrib k d rk rank := by
  induction rk with
  | nil => intro rank; simp [sumContrib, posContrib]
  | cons p rest ih =>
    obtain ⟨doc_id, s⟩ := p
    intro rank
    simp only [List.map_cons, List.nodup_cons] at h
    by_cases hd : doc_id = d
    · subst hd
      simp only [sumContrib, posContrib, eq_self_iff_true, if_true]
      rw [sumContrib_eq_zero k doc_id rest h.1 (rank + 1)]
      ring
    · simp only [sumContrib, posContrib, if_neg hd, zero_add]
      exact ih h.2 (rank + 1)

/-- The fused score assigned by `reciprocal_rank_fusion` to any document
occurring in some input list is exactly the spec formula, as a member of the
output list. -/
theorem rrf_mem_spec (rankings : List (List (ℕ × ℝ))) (k : ℕ)
    (hnd : ∀ rk ∈ rankings, (rk.map Prod.fst).Nodup) (d : ℕ)
    (hd : ∃ rk ∈ rankings, d ∈ rk.map Prod.fst) :
    (d, rrfSpecScore rankings k d) ∈ reciprocal_rank_fusion rankings k := by
  have hkeys : d ∈ ((rankings.foldl (fun a rk => rrfAddRanking k a rk 0) []).map Prod.fst) := by
    rw [mem_keys_rrf_foldl]
    exact Or.inr hd
  have hval : valueOf (rankings.foldl (fun a rk => rrfAddRanking k a rk 0) []) d
      = rrfSpecScore rankings k d := by
    rw [valueOf_rrf_foldl]
    have hmap : (rankings.map (fun rk => sumContrib k d rk 0)) =
        (rankings.map (fun rk => posContrib k d rk 0)) :=
      List.map_congr_left (fun rk hrk => sumContrib_eq_posContrib k d rk (hnd rk hrk) 0)
    rw [hmap]
    simp [valueOf, rrfSpecScore]
  have hmem := mem_of_valueOf _ _ hkeys
  rw [hval] at hmem
  unfold reciprocal_rank_fusion
  exact (List.perm_insertionSort scoreDescRel _).symm.subset hmem

/-- Claim C7 (confirmed): the fused output mentions only documents present in
some input list, mentions each document index at most once, and is sorted by
non-increasing fused score. -/
theorem C7_rrf_output (rankings : List (List (ℕ × ℝ))) (k : ℕ) :
    (∀ p ∈ reciprocal_rank_fusion rankings k, ∃ rk ∈ rankings, p.1 ∈ rk.map Prod.fst) ∧
    ((reciprocal_rank_fusion rankings k).map Prod.fst).Nodup ∧
    List.Sorted scoreDescRel (reciprocal_rank_fusion rankings k) := by
  unfold reciprocal_rank_fusion
  refine ⟨?_, ?_, List.sorted_insertionSort _ _⟩
  · intro p hp
    have hp2 := (List.perm_insertionSort scoreDescRel _).subset hp
    have hp3 : p.1 ∈ ((rankings.foldl (fun a rk => rrfAddRanking k a rk 0) []).map Prod.fst) :=
      List.mem_map_of_mem Prod.fst hp2
    rw [mem_keys_rrf_foldl] at hp3
    rcases hp3 with h | h
    · simp at h
    · exact h
  · have hperm := ((List.perm_insertionSort scoreDescRel
      (rankings.foldl (fun a rk => rrfAddRanking k a rk 0) [])).map Prod.fst)
    rw [hperm.nodup_iff]
    exact nodup_keys_rrf_foldl k rankings [] (by simp)

/-- Claim C6 (confirmed): fusion assigns each document the sum of
`1/(60 + rank + 1)` over the lists containing it (`rank` its 0-based
position); a document heading both of two lists gets exactly `2/61`, one
heading only one of two lists gets `1/61`, which is strictly less. -/
theorem C6_rrf_scores :
    (∀ (rankings : List (List (ℕ × ℝ))),
      (∀ rk ∈ rankings, (rk.map Prod.fst).Nodup) →
      ∀ d, (∃ rk ∈ rankings, d ∈ rk.map Prod.fst) →
        (d, rrfSpecScore rankings 60 d) ∈ reciprocal_rank_fusion rankings 60) ∧
    (∀ (l1 l2 : List (ℕ × ℝ)) (a : ℕ) (x y : ℝ),
      (∀ rk ∈ [l1, l2], (rk.map Prod.fst).Nodup) →
      l1.head? = some (a, x) → l2.head? = some (a, y) →
        (a, 2 / 61) ∈ reciprocal_rank_fusion [l1, l2] 60) ∧
    (∀ (l1 l2 : List (ℕ × ℝ)) (b : ℕ) (x : ℝ),
      (∀ rk ∈ [l1, l2], (rk.map Prod.fst).Nodup) →
      l1.head? = some (b, x) → b ∉ l2.map Prod.fst →
        (b, 1 / 61) ∈ reciprocal_rank_fusion [l1, l2] 60 ∧ (1 : ℝ) / 61 < 2 / 61) := by
  refine ⟨fun rankings hnd d hd => rrf_mem_spec rankings 60 hnd d hd, ?_, ?_⟩
  · intro l1 l2 a x y hnd h1 h2
    cases l1 with
    | nil => simp at h1
    | cons p t1 =>
      cases l2 with
      | nil => simp at h2
      | cons q t2 =>
        simp only [List.head?_cons, Option.some_inj] at h1 h2
        subst h1
        subst h2
        have hval : rrfSpecScore [(a, x) :: t1, (a, y) :: t2] 60 a = 2 / 61 := by
          simp only [rrfSpecScore, List.map_cons, List.map_nil, List.sum_cons,
            List.sum_nil, posContrib, eq_self_iff_true, if_true]
          norm_num
        have hmem := rrf_mem_spec [(a, x) :: t1, (a, y) :: t2] 60 hnd a
          ⟨(a, x) :: t1, by simp, by simp⟩
        rwa [hval] at hmem
  · intro l1 l2 b x hnd h1 h2
    cases l1 with
    | nil => simp at h1
    | cons p t1 =>
      simp only [List.head?_cons, Option.some_inj] at h1
      subst h1
      have hval : rrfSpecScore [(b, x) :: t1, l2] 60 b = 1 / 61 := by
        have hz := posContrib_eq_zero 60 b l2 h2 0
        simp only [rrfSpecScore, List.map_cons, List.map_nil, List.sum_cons,
          List.sum_nil, posContrib, eq_self_iff_true, if_true, hz]
        norm_num
      have hmem := rrf_mem_spec [(b, x) :: t1, l2] 60 hnd b
        ⟨(b, x) :: t1, by simp, by simp⟩
      rw [hval] at hmem
      exact ⟨hmem, by norm_num⟩

/-- Claim C6, witness: concrete two-list fusions instantiating every part of
the theorem. -/
theorem C6_witness :
    (∀ rk ∈ [[((3 : ℕ), (1 : ℝ))], [(3, 1 / 2)]], (rk.map Prod.fst).Nodup) ∧
    (∃ rk ∈ [[((3 : ℕ), (1 : ℝ))], [(3, 1 / 2)]], 3 ∈ rk.map Prod.fst) ∧
    (3, rrfSpecScore [[((3 : ℕ), (1 : ℝ))], [(3, 1 / 2)]] 60 3) ∈
      reciprocal_rank_fusion [[((3 : ℕ), (1 : ℝ))], [(3, 1 / 2)]] 60 ∧
    (3, 2 / 61) ∈ reciprocal_rank_fusion [[((3 : ℕ), (1 : ℝ))], [(3, 1 / 2)]] 60 ∧
    (4, 1 / 61) ∈ reciprocal_rank_fusion [[((4 : ℕ), (1 : ℝ))], [(3, 1)]] 60 ∧
    (1 : ℝ) / 61 < 2 / 61 := by
  have hnd1 : ∀ rk ∈ [[((3 : ℕ), (1 : ℝ))], [(3, 1 / 2)]], (rk.map Prod.fst).Nodup := by
    simp
  have hnd2 : ∀ rk ∈ [[((4 : ℕ), (1 : ℝ))], [(3, 1)]], (rk.map Prod.fst).Nodup := by
    simp
  have hex : ∃ rk ∈ [[((3 : ℕ), (1 : ℝ))], [(3, 1 / 2)]], 3 ∈ rk.map Prod.fst :=
    ⟨[(3, 1)], by simp, by simp⟩
  exact ⟨hnd1, hex, C6_rrf_scores.1 _ hnd1 3 hex,
    C6_rrf_scores.2.1 [(3, 1)] [(3, 1 / 2)] 3 1 (1 / 2) hnd1 rfl rfl,
    (C6_rrf_scores.2.2 [(4, 1)] [(3, 1)] 4 1 hnd2 rfl (by simp)).1,
    (C6_rrf_scores.2.2 [(4, 1)] [(3, 1)] 4 1 hnd2 rfl (by simp)).2⟩

/-! ### Re-ranking fallback -/

/-- On judge failure `rerank` returns the first `top_k` of the *capped*
candidate list; when `top_k ≤ 15` this is the first `top_k` input
candidates. -/
theorem rerank_judge_none (query : String) (cands : List Candidate) (k : ℕ)
    (hk : k ≤ 15) : rerank none query cands k = cands.take k := by
  unfold rerank
  by_cases hc : cands.isEmpty
  · rw [if_pos hc, List.isEmpty_iff.mp hc]
    simp
  · rw [if_neg hc]
    show (cands.take 15).take k = cands.take k
    rw [List.take_take, min_eq_left hk]

/-- Claim C3 (corrected with the cap `k ≤ 15`): on judge failure `rerank`
falls back to the first `k` input candidates, and an engine search with
re-ranking enabled and a failing judge returns exactly what the same search
with re-ranking disabled returns — the first `k` fused candidates; the
pipeline never fails because of judge unavailability.  (For `k > 15` the
pre-call cap makes the fallback shorter than `k`, see the counterexample.) -/
theorem C3_judge_fallback (query : String) (cands : List Candidate)
    (e : HybridSearchEngine) (query_embedding : List ℝ) (k retrieval_top_k : ℕ)
    (hk : k ≤ 15) :
    rerank none query cands k = cands.take k ∧
    engineSearch e query query_embedding none k true retrieval_top_k =
      engineSearch e query query_embedding none k false retrieval_top_k := by
  refine ⟨rerank_judge_none query cands k hk, ?_⟩
  by_cases hr : e.is_ready = true
  · simp only [engineSearch, hr, if_true]
    cases hbc : buildCandidates e.documents
        (reciprocal_rank_fusion [bm25Search e.bm25 query retrieval_top_k,
          vectorSearch e.vector_store query_embedding retrieval_top_k] 60)
        retrieval_top_k with
    | none => simp
    | some candidates =>
      by_cases hce : candidates.isEmpty
      · simp [hce]
      · simp [hce, rerank_judge_none query candidates k hk]
  · simp [engineSearch, hr]

/-- A candidate with no optional fields set, for building concrete lists. -/
def CAND0 : Candidate := ⟨D0, none, none, none, none⟩

/-- Sixteen candidates — one more than the re-ranker's cap. -/
def C16 : List Candidate := List.replicate 16 CAND0

/-- Claim C3, counterexample to the claim as stated for every `k`: with 16
candidates and `k = 16`, the failed-judge fallback returns only the first 15
candidates (the cap applied before the judge call), not the first 16. -/
theorem C3_counterexample : rerank none "jual kopi keliling" C16 16 ≠ C16.take 16 := by
  intro h
  have hlen := congrArg List.length h
  have h1 : (rerank none "jual kopi keliling" C16 16).length = 15 := by
    unfold rerank
    rw [if_neg (by decide)]
    show ((C16.take 15).take 16).length = 15
    simp [C16]
  have h2 : (C16.take 16).length = 16 := by simp [C16]
  rw [h1, h2] at hlen
  exact absurd hlen (by decide)

/-! ### Candidate deduplication -/

/-- Invariant of the candidate walk: codes are nodup and outside `seen`, at
most one candidate per input entry, and every candidate records the document,
index, and fused score of the *first* entry of the walked list carrying its
identifier. -/
theorem walkCandidates_spec (docs : List Doc) :
    ∀ (L : List (ℕ × ℝ)) (seen : List String) (cands : List Candidate),
    walkCandidates docs L seen = some cands →
    (cands.map (fun c => c.doc.kode_kbli)).Nodup ∧
    (∀ c ∈ cands, c.doc.kode_kbli ∉ seen) ∧
    cands.length ≤ L.length ∧
    (∀ c ∈ cands, ∃ i s, c.doc_idx = some i ∧ c.rrf_score = some s ∧
      docs[i]? = some c.doc ∧
      L.find? (fun p => (docs.getD p.1 default).kode_kbli == c.doc.kode_kbli)
        = some (i, s)) := by
  intro L
  induction L with
  | nil =>
    intro seen cands h
    simp only [walkCandidates, Option.some_inj] at h
    subst h
    simp
  | cons hd rest ih =>
    obtain ⟨doc_idx, rrf_score⟩ := hd
    intro seen cands h
    simp only [walkCandidates] at h
    split at h
    · exact absurd h (by simp)
    · next doc hdoc =>
      have hgetD : docs.getD doc_idx default = doc := by
        simp [List.getD_eq_getElem?_getD, hdoc]
      split at h
      · next hseen =>
        obtain ⟨ih1, ih2, ih3, ih4⟩ := ih seen cands h
        refine ⟨ih1, ih2, le_trans ih3 (by simp), ?_⟩
        intro c hc
        obtain ⟨i, s, h1, h2, h3, h4⟩ := ih4 c hc
        refine ⟨i, s, h1, h2, h3, ?_⟩
        rw [List.find?_cons_of_neg]
        · exact h4
        · simp only [hgetD, beq_iff_eq]
          intro heq
          exact (ih2 c hc) (heq ▸ hseen)
      · next hseen =>
        split at h
        · exact absurd h (by simp)
        · next tail htail =>
          rw [Option.some_inj] at h
          subst h
          obtain ⟨ih1, ih2, ih3, ih4⟩ := ih _ tail htail
          have htailne : ∀ c ∈ tail, c.doc.kode_kbli ≠ doc.kode_kbli := by
            intro c hc heq
            exact (ih2 c hc) (by rw [heq]; exact List.mem_cons_self _ _)
          refine ⟨?_, ?_, ?_, ?_⟩
          · simp only [List.map_cons, List.nodup_cons]
            refine ⟨fun hmem => ?_, ih1⟩
            obtain ⟨c, hc, hceq⟩ := List.mem_map.mp hmem
            exact htailne c hc hceq
          · intro c hc
            rcases List.mem_cons.mp hc with hc | hc
            · subst hc
              exact hseen
            · exact fun hmem => (ih2 c hc) (List.mem_cons_of_mem _ hmem)
          · simp only [List.length_cons]
            exact Nat.succ_le_succ ih3
          · intro c hc
            rcases List.mem_cons.mp hc with hc | hc
            · subst hc
              refine ⟨doc_idx, rrf_score, rfl, rfl, hdoc, ?_⟩
              rw [List.find?_cons_of_pos]
              simp [hgetD, hdoc]
            · obtain ⟨i, s, h1, h2, h3, h4⟩ := ih4 c hc
              refine ⟨i, s, h1, h2, h3, ?_⟩
              rw [List.find?_cons_of_neg]
              · exact h4
              · simp only [hgetD, beq_iff_eq]
                exact fun heq => htailne c hc heq.symm

/-- Claim C8 (confirmed): the candidate list built from the fused ranking
carries each identifier at most once, has at most `retrieval_top_k` entries,
and every candidate's index and fused score are those of the first entry of
the truncated fused ranking whose document carries that identifier. -/
theorem C8_dedup (docs : List Doc) (fused_ranking : List (ℕ × ℝ))
    (retrieval_top_k : ℕ) (cands : List Candidate)
    (h : buildCandidates docs fused_ranking retrieval_top_k = some cands) :
    (cands.map (fun c => c.doc.kode_kbli)).Nodup ∧
    cands.length ≤ retrieval_top_k ∧
    ∀ c ∈ cands, ∃ i s, c.doc_idx = some i ∧ c.rrf_score = some s ∧
      docs[i]? = some c.doc ∧
      (fused_ranking.take retrieval_top_k).find?
        (fun p => (docs.getD p.1 default).kode_kbli == c.doc.kode_kbli) = some (i, s) := by
  obtain ⟨h1, _, h3, h4⟩ :=
    walkCandidates_spec docs (fused_ranking.take retrieval_top_k) [] cands h
  exact ⟨h1, le_trans h3 (List.length_take_le _ _), h4⟩

/-- The candidate list produced on the duplicate-identifier corpus
`[D0, D1]`: only the first occurrence survives. -/
def CANDS8 : List Candidate := [⟨D0, some 1, some 0, none, none⟩]

/-- Claim C8, witness: the fused ranking mentions indices 0 and 1, whose
records share the identifier `"47111"`; only index 0 survives. -/
theorem C8_witness :
    buildCandidates [D0, D1] [(0, (1 : ℝ)), (1, 1 / 2)] 20 = some CANDS8 ∧
    (CANDS8.map (fun c => c.doc.kode_kbli)).Nodup ∧
    CANDS8.length ≤ 20 ∧
    (∀ c ∈ CANDS8, ∃ i s, c.doc_idx = some i ∧ c.rrf_score = some s ∧
      ([D0, D1] : List Doc)[i]? = some c.doc ∧
      (([(0, (1 : ℝ)), (1, 1 / 2)] : List (ℕ × ℝ)).take 20).find?
        (fun p => (([D0, D1] : List Doc).getD p.1 default).kode_kbli == c.doc.kode_kbli)
          = some (i, s)) := by
  have heval : buildCandidates [D0, D1] [(0, (1 : ℝ)), (1, 1 / 2)] 20 = some CANDS8 := rfl
  obtain ⟨h1, h2, h3⟩ := C8_dedup [D0, D1] [(0, (1 : ℝ)), (1, 1 / 2)] 20 CANDS8 heval
  exact ⟨heval, h1, h2, h3⟩

/-! ### Provenance of returned results -/

/-- Any property preserved by attaching re-ranking fields holds for every
element of the judge-success mapping loop. -/
theorem applyRanking_foldl_prop (P : Candidate → Prop)
    (hP : ∀ (c : Candidate) (r : JudgeRanking),
      P c → P { c with relevance_score := some r.relevance, reasoning := some r.reason })
    (candidates : List Candidate) (hc : ∀ c ∈ candidates, P c) :
    ∀ (rs : List JudgeRanking) (acc : List Candidate), (∀ a ∈ acc, P a) →
    ∀ r ∈ rs.foldl (applyRanking candidates) acc, P r := by
  intro rs
  induction rs with
  | nil => intro acc hacc r hr; exact hacc r hr
  | cons jr rest ih =>
    intro acc hacc r hr
    simp only [List.foldl_cons] at hr
    refine ih _ ?_ r hr
    intro a ha
    simp only [applyRanking] at ha
    split at ha
    · next hcond =>
      rcases List.mem_append.mp ha with hmem | hmem
      · exact hacc a hmem
      · simp only [List.mem_singleton] at hmem
        subst hmem
        exact hP _ jr (hc _ (List.get_mem _ _ _))
    · exact hacc a ha

/-- Any property preserved by attaching re-ranking fields transfers from the
candidates to every element of the re-ranked output. -/
theorem rerank_prop (P : Candidate → Prop)
    (hP : ∀ (c : Candidate) (r : JudgeRanking),
      P c → P { c with relevance_score := some r.relevance, reasoning := some r.reason })
    (judge : Option (List JudgeRanking)) (query : String)
    (cands : List Candidate) (k : ℕ) (hc : ∀ c ∈ cands, P c) :
    ∀ r ∈ rerank judge query cands k, P r := by
  intro r hr
  unfold rerank at hr
  split at hr
  · simp at hr
  · have hcap : ∀ c ∈ cands.take 15, P c := fun c h => hc c (List.mem_of_mem_take h)
    cases judge with
    | none => exact hcap r (List.mem_of_mem_take hr)
    | some rankings =>
      exact applyRanking_foldl_prop P hP _ hcap _ [] (by simp) r hr

/-- Claim C1 (corrected): in every completed engine search, the internal
source-index field `_doc_idx` is removed from every returned entry, but the
fusion score `rrf_score` is *not* removed — the code pops only `_doc_idx`,
and every returned entry still carries a fusion score. -/
theorem C1_provenance (e : HybridSearchEngine) (query : String)
    (query_embedding : List ℝ) (judge : Option (List JudgeRanking))
    (top_k : ℕ) (use_reranking : Bool) (retrieval_top_k : ℕ)
    (resp : SearchResponse)
    (h : engineSearch e query query_embedding judge top_k use_reranking retrieval_top_k
      = some resp) :
    ∀ r ∈ resp.results, r.doc_idx = none ∧ r.rrf_score.isSome := by
  simp only [engineSearch] at h
  split at h
  · split at h
    · exact absurd h (by simp)
    · next candidates hbc =>
      rw [Option.some_inj] at h
      subst h
      intro r hr
      simp only [SearchResponse.results] at hr
      obtain ⟨r0, hr0, hr0eq⟩ := List.mem_map.mp hr
      subst hr0eq
      refine ⟨rfl, ?_⟩
      show r0.rrf_score.isSome
      have hcands : ∀ c ∈ candidates, c.rrf_score.isSome := by
        intro c hc
        obtain ⟨-, -, -, h4⟩ := walkCandidates_spec e.documents _ [] candidates hbc
        obtain ⟨i, s, -, h2, -, -⟩ := h4 c hc
        simp [h2]
      by_cases hur : (use_reranking && !candidates.isEmpty) = true
      · rw [if_pos hur] at hr0
        exact rerank_prop (fun c => c.rrf_score.isSome)
          (fun c jr hp => by simpa using hp) judge query candidates top_k hcands r0 hr0
      · rw [if_neg hur] at hr0
        exact hcands r0 (List.mem_of_mem_take hr0)
  · rw [Option.some_inj] at h
    subst h
    intro r hr
    simp [SearchResponse.results] at hr

/-- A ready one-document vector store. -/
def VS1 : LocalVectorStore := { embeddings := [[1]], documents := [D0], is_ready := true }

/-- A ready one-document engine. -/
noncomputable def E1 : HybridSearchEngine :=
  { bm25 := bm25Fit [D0] defaultTextFields
    vector_store := VS1
    documents := [D0]
    is_ready := true }

/-- The single result entry of the concrete search below: the source-index
field is gone but the fusion score is still present. -/
noncomputable def CAND1 : Candidate := ⟨D0, some (1 / 61), none, none, none⟩

/-- The response of the concrete search below. -/
noncomputable def RESP1 : SearchResponse := .ok "" 1 0 1 [CAND1]

theorem bm25Search_E1_eval : bm25Search E1.bm25 "" 20 = [] := by
  simp [bm25Search, tokenize]

theorem vectorSearch_E1_eval :
    vectorSearch E1.vector_store [0] 20 = [((0 : ℕ), (0 : ℝ))] := by
  have hsims : vectorSims VS1 [0] = [0] := by
    simp [vectorSims, VS1, normalizeVec, dotProduct]
  have hrdy : VS1.is_ready = true := rfl
  have hidx : argsortAsc ([0] : List ℝ) = [0] := by
    have hperm := argsortAsc_perm ([0] : List ℝ)
    exact List.perm_singleton.mp hperm
  show vectorSearch VS1 [0] 20 = [((0 : ℕ), (0 : ℝ))]
  simp only [vectorSearch, hrdy, if_true, hsims, hidx]
  simp

theorem rrf_E1_eval :
    reciprocal_rank_fusion [([] : List (ℕ × ℝ)), [((0 : ℕ), (0 : ℝ))]] 60
      = [(0, 1 / 61)] := by
  simp only [reciprocal_rank_fusion, List.foldl_cons, List.foldl_nil,
    rrfAddRanking, updateScore, List.insertionSort, List.orderedInsert]
  norm_num

theorem engineSearch_E1_eval :
    engineSearch E1 "" [0] none 5 false 20 = some RESP1 := by
  have hready : E1.is_ready = true := rfl
  simp only [engineSearch, hready, if_true, bm25Search_E1_eval, vectorSearch_E1_eval,
    rrf_E1_eval]
  have hbc : buildCandidates E1.documents [((0 : ℕ), (1 / 61 : ℝ))] 20
      = some [⟨D0, some (1 / 61), some 0, none, none⟩] := rfl
  rw [hbc]
  simp [RESP1, CAND1]

/-- Claim C1, counterexample to the claim as stated: a completed search whose
returned entry still carries the fusion score `rrf_score` — only the source
index `_doc_idx` was stripped. -/
theorem C1_counterexample :
    engineSearch E1 "" [0] none 5 false 20 = some RESP1 ∧
    CAND1 ∈ RESP1.results ∧ CAND1.rrf_score ≠ none :=
  ⟨engineSearch_E1_eval, by simp [RESP1, SearchResponse.results], by simp [CAND1]⟩

/-- Claim C1, witness: the amended theorem applied to the concrete search. -/
theorem C1_witness :
    engineSearch E1 "" [0] none 5 false 20 = some RESP1 ∧
    ∀ r ∈ RESP1.results, r.doc_idx = none ∧ r.rrf_score.isSome :=
  ⟨engineSearch_E1_eval,
    C1_provenance E1 "" [0] none 5 false 20 RESP1 engineSearch_E1_eval⟩

/-- Claim C3, witness: the theorem applied at `k = 5 ≤ 15` on the concrete
ready engine. -/
theorem C3_witness :
    (5 : ℕ) ≤ 15 ∧
    rerank none "jual kopi keliling" C16 5 = C16.take 5 ∧
    engineSearch E1 "jual kopi keliling" [0] none 5 true 20 =
      engineSearch E1 "jual kopi keliling" [0] none 5 false 20 :=
  ⟨by norm_num,
    (C3_judge_fallback "jual kopi keliling" C16 E1 [0] 5 20 (by norm_num)).1,
    (C3_judge_fallback "jual kopi keliling" C16 E1 [0] 5 20 (by norm_num)).2⟩


/-! ### Vector search ordering -/

/-- What the vector store guarantees under the unspecified-tie argsort model:
a ready store returns `min top_k n` entries, each a valid index paired with
its own similarity, sorted by non-increasing similarity, and no returned
similarity is exceeded by an omitted one (top-k).  The relative order of
entries with equal similarity is *not* specified: it depends on
`np.argsort`'s default sort, whose tie order NumPy leaves open. -/
theorem vectorSearch_sorted_topk (store : LocalVectorStore)
    (query_embedding : List ℝ) (top_k : ℕ) (h : store.is_ready = true) :
    (vectorSearch store query_embedding top_k).length
      = min top_k (vectorSims store query_embedding).length ∧
    (∀ p ∈ vectorSearch store query_embedding top_k,
      p.1 < (vectorSims store query_embedding).length ∧
      p.2 = (vectorSims store query_embedding).getD p.1 0) ∧
    List.Sorted scoreDescRel (vectorSearch store query_embedding top_k) ∧
    (∀ p ∈ vectorSearch store query_embedding top_k,
      ∀ j < (vectorSims store query_embedding).length,
        j ∉ (vectorSearch store query_embedding top_k).map Prod.fst →
        (vectorSims store query_embedding).getD j 0 ≤ p.2) := by
  have hout : vectorSearch store query_embedding top_k
      = ((argsortAsc (vectorSims store query_embedding)).reverse.take top_k).map
          (fun idx => (idx, (vectorSims store query_embedding).getD idx 0)) := by
    simp only [vectorSearch, h, if_true]
  have hmemidx : ∀ i ∈ (argsortAsc (vectorSims store query_embedding)).reverse.take top_k,
      i < (vectorSims store query_embedding).length := by
    intro i hi
    have h1 : i ∈ (argsortAsc (vectorSims store query_embedding)).reverse :=
      List.mem_of_mem_take hi
    rw [List.mem_reverse] at h1
    have h2 := (argsortAsc_perm (vectorSims store query_embedding)).subset h1
    exact List.mem_range.mp h2
  have hdesc : (argsortAsc (vectorSims store query_embedding)).reverse.Pairwise
      (fun i j => (vectorSims store query_embedding).getD j 0 ≤
        (vectorSims store query_embedding).getD i 0) := by
    rw [List.pairwise_reverse]
    exact argsortAsc_sorted (vectorSims store query_embedding)
  refine ⟨?_, ?_, ?_, ?_⟩
  · rw [hout, List.length_map, List.length_take, List.length_reverse,
      (argsortAsc_perm (vectorSims store query_embedding)).length_eq, List.length_range]
  · intro p hp
    rw [hout] at hp
    obtain ⟨idx, hidx, rfl⟩ := List.mem_map.mp hp
    exact ⟨hmemidx idx hidx, rfl⟩
  · rw [hout]
    exact List.pairwise_map.mpr
      (List.Pairwise.sublist (List.take_sublist _ _) hdesc)
  · intro p hp j hj hjnot
    rw [hout] at hp
    obtain ⟨idx, hidx, rfl⟩ := List.mem_map.mp hp
    rw [hout] at hjnot
    have hfst : (((argsortAsc (vectorSims store query_embedding)).reverse.take top_k).map
        (fun idx => (idx, (vectorSims store query_embedding).getD idx 0))).map Prod.fst
        = (argsortAsc (vectorSims store query_embedding)).reverse.take top_k := by
      simp [List.map_map, Function.comp_def]
    rw [hfst] at hjnot
    have hjfull : j ∈ (argsortAsc (vectorSims store query_embedding)).reverse := by
      rw [List.mem_reverse]
      exact (argsortAsc_perm (vectorSims store query_embedding)).symm.subset
        (List.mem_range.mpr hj)
    have hjdrop : j ∈ (argsortAsc (vectorSims store query_embedding)).reverse.drop top_k := by
      rcases List.mem_append.mp
        ((List.take_append_drop top_k
          (argsortAsc (vectorSims store query_embedding)).reverse) ▸ hjfull) with hmem | hmem
      · exact absurd hmem hjnot
      · exact hmem
    have hsplit := (List.pairwise_append.mp
      ((List.take_append_drop top_k
        (argsortAsc (vectorSims store query_embedding)).reverse).symm ▸ hdesc)).2.2
    exact hsplit idx hidx j hjdrop
